import Mathlib

/-!
# Verification of tolteca core algorithms

Shallow embedding, in Lean 4, of the algorithmic core of the `tolteca`
repository, together with theorems checking the natural-language
specification against it.  The embedded pieces are:

* the time-chunk planner `SimulatorRuntime._make_time_chunks`
  (`src/tolteca/simu2/__init__.py`);
* the exposure-time resolution logic of `SimulatorRuntime.run`;
* the schema `Meta` flags of `SimuConfig`, `ObsParamsConfig` and
  `PerfParamsConfig`;
* the TolTEC filename classifier `ToltecDataFileSpec._info_from_filename`
  and its `post_toltec` post-processing (`src/tolteca/fs/toltec.py`);
* the coverage-map depth conversion, conservation quantity and outline
  thresholding of `Toltec.make_traj_data` / `Toltec._make_cov_hdu_approx`
  (`src/tolteca/web/templates/obs_planner/toltec.py`).

Machine floats are modelled by exact rationals/reals; numpy arrays by
lists or by finitely supported functions on `ℤ × ℤ`.
-/

namespace Tolteca

/-! ## Time-chunk planner (`SimulatorRuntime._make_time_chunks`)

The Python code builds `t = np.arange(0, t_exp, 1/f_smp)`, i.e. the sample
timestamps `k / f_smp` for every integer `k ≥ 0` with `k / f_smp < t_exp`.
We represent each timestamp by its sample index `k`; in exact arithmetic
the number of samples is `⌈t_exp * f_smp⌉`. -/

/-- Number of elements of `np.arange(0, t_exp, 1/f_smp)` in exact
arithmetic: the number of integers `k ≥ 0` with `k < t_exp * f_smp`. -/
def nSamples (t_exp f_smp : ℚ) : ℕ := ⌈t_exp * f_smp⌉₊

/-- Python `n_times_per_chunk = int(chunk_len * f_smp)`; `int()` truncates
toward zero; for the nonnegative products considered here this is the
floor. -/
def nPerChunk (f_smp chunk_len : ℚ) : ℕ := (⌊chunk_len * f_smp⌋).toNat

/-- Python `n_chunks = n_times // n_times_per_chunk + bool(n_times % n_times_per_chunk)`. -/
def nChunksNaive (n_times npc : ℕ) : ℕ :=
  n_times / npc + (if n_times % npc ≠ 0 then 1 else 0)

/-- The naive split `t_chunks[i] = t[i*npc : (i+1)*npc]` for
`i < n_chunks`, with the timeline represented by sample indices
`List.range n_times`. -/
def naiveChunks (n_times npc : ℕ) : List (List ℕ) :=
  (List.range (nChunksNaive n_times npc)).map
    (fun i => ((List.range n_times).drop (i * npc)).take npc)

/-- The trailing-chunk merge: if there are at least two chunks and
`len(t_chunks[-1]) * 10 < len(t_chunks[-2])`, pop the last chunk and
append it to its predecessor.  (The Python code mutates the list in
place; here the last two elements are reached by structural recursion.) -/
def mergeLast : List (List ℕ) → List (List ℕ)
  | [] => []
  | [c] => [c]
  | [p, l] => if l.length * 10 < p.length then [p ++ l] else [p, l]
  | c :: c₂ :: c₃ :: rest => c :: mergeLast (c₂ :: c₃ :: rest)

/-- The planner `SimulatorRuntime._make_time_chunks`.  When
`int(chunk_len * f_smp) = 0` the expression
`n_times // n_times_per_chunk` raises `ZeroDivisionError`; this is
modelled by returning `none`. -/
def makeTimeChunks (t_exp f_smp chunk_len : ℚ) : Option (List (List ℕ)) :=
  let npc := nPerChunk f_smp chunk_len
  if npc = 0 then none
  else some (mergeLast (naiveChunks (nSamples t_exp f_smp) npc))

/-- Exposure-time resolution in `SimulatorRuntime.run`: use
`obs_params.t_exp` when it is set, else fall back to the mapping model's
`t_pattern`.  This is a total function: an unset `t_exp` is not an
error. -/
def resolveTExp (t_exp : Option ℚ) (t_pattern : ℚ) : ℚ :=
  match t_exp with
  | none => t_pattern
  | some t => t

/-- The time chunks built by `SimulatorRuntime.run`: the planner applied
to the resolved exposure time. -/
def runTimeChunks (t_exp : Option ℚ) (t_pattern f_smp chunk_len : ℚ) :
    Option (List (List ℕ)) :=
  makeTimeChunks (resolveTExp t_exp t_pattern) f_smp chunk_len

/-! ### Lemmas about the planner -/

/-- Merging the trailing chunk never changes the concatenated timeline. -/
theorem mergeLast_flatten :
    ∀ cs : List (List ℕ), (mergeLast cs).flatten = cs.flatten
  | [] => rfl
  | [_] => rfl
  | [p, l] => by
    by_cases h : l.length * 10 < p.length <;> simp [mergeLast, h]
  | c :: c₂ :: c₃ :: rest => by
    simp only [mergeLast, List.flatten_cons, mergeLast_flatten (c₂ :: c₃ :: rest)]

/-- The merge `mergeLast` only acts on the final two chunks. -/
theorem mergeLast_append_pair :
    ∀ (rest : List (List ℕ)) (p l : List ℕ),
      mergeLast (rest ++ [p, l]) = rest ++ mergeLast [p, l]
  | [], p, l => by simp
  | [a], p, l => by
    by_cases h : l.length * 10 < p.length <;> simp [mergeLast, h]
  | a :: b :: t, p, l => by
    obtain ⟨x, xs, hx⟩ : ∃ x xs, t ++ [p, l] = x :: xs := by
      cases t with
      | nil => exact ⟨p, [l], rfl⟩
      | cons y ys => exact ⟨y, ys ++ [p, l], by simp⟩
    have ih := mergeLast_append_pair (b :: t) p l
    calc mergeLast ((a :: b :: t) ++ [p, l])
        = mergeLast (a :: b :: (t ++ [p, l])) := by simp
      _ = mergeLast (a :: b :: x :: xs) := by rw [hx]
      _ = a :: mergeLast (b :: x :: xs) := rfl
      _ = a :: mergeLast (b :: (t ++ [p, l])) := by rw [← hx]
      _ = a :: mergeLast ((b :: t) ++ [p, l]) := by simp
      _ = (a :: b :: t) ++ mergeLast [p, l] := by rw [ih]; simp

/-- Peeling one chunk off the naive chunk count. -/
theorem nChunksNaive_succ (N npc : ℕ) (hN : 0 < N) (hnpc : 0 < npc) :
    nChunksNaive N npc = nChunksNaive (N - npc) npc + 1 := by
  by_cases h : npc ≤ N
  · obtain ⟨M, hM⟩ := Nat.le.dest h
    have hsub : N - npc = M := by omega
    have hdiv : N / npc = M / npc + 1 := by
      rw [← hM, Nat.add_comm npc M, Nat.add_div_right _ hnpc]
    have hmod : N % npc = M % npc := by
      rw [← hM, Nat.add_comm npc M, Nat.add_mod_right]
    unfold nChunksNaive
    rw [hsub, hdiv, hmod]
    by_cases hm : M % npc = 0 <;> simp [hm] <;> omega
  · have h1 : N < npc := by omega
    have hsub : N - npc = 0 := by omega
    unfold nChunksNaive
    rw [hsub, Nat.div_eq_of_lt h1, Nat.mod_eq_of_lt h1]
    have hne : N ≠ 0 := by omega
    simp [hne]

/-- Splitting any list into `nChunksNaive`-many `npc`-sized slices and
re-concatenating reproduces the list.  (`fuel` bounds the length for the
induction.) -/
theorem flatten_chunksAux :
    ∀ (fuel : ℕ) (l : List ℕ) (npc : ℕ), l.length ≤ fuel → 0 < npc →
      ((List.range (nChunksNaive l.length npc)).map
        (fun i => (l.drop (i * npc)).take npc)).flatten = l := by
  intro fuel
  induction fuel with
  | zero =>
    intro l npc hl _
    have : l = [] := List.length_eq_zero.mp (by omega)
    subst this
    simp [nChunksNaive]
  | succ n ih =>
    intro l npc hl hnpc
    rcases Nat.eq_zero_or_pos l.length with h0 | hpos
    · have : l = [] := List.length_eq_zero.mp h0
      subst this
      simp [nChunksNaive]
    · have hdroplen : (l.drop npc).length = l.length - npc := by simp
      rw [nChunksNaive_succ l.length npc hpos hnpc, List.range_succ_eq_map]
      simp only [List.map_cons, List.map_map, List.flatten_cons, Nat.zero_mul,
        List.drop_zero]
      have hfun : ∀ i,
          ((fun i => (l.drop (i * npc)).take npc) ∘ Nat.succ) i =
            ((l.drop npc).drop (i * npc)).take npc := by
        intro i
        simp only [Function.comp_apply, List.drop_drop, Nat.succ_mul,
          Nat.add_comm]
      rw [funext hfun]
      have hih := ih (l.drop npc) npc (by omega) hnpc
      rw [hdroplen] at hih
      rw [hih, List.take_append_drop]

/-- The naive chunks concatenate, in order, to the full sample range. -/
theorem flatten_naiveChunks (N npc : ℕ) (hnpc : 0 < npc) :
    (naiveChunks N npc).flatten = List.range N := by
  have := flatten_chunksAux N (List.range N) npc (by simp) hnpc
  simpa [naiveChunks] using this

/-- Concrete evaluations of `nSamples` and `nPerChunk` used by closed
statements (the kernel does not reduce `ℚ` arithmetic, so these are
established by `norm_num`). -/
theorem nSamples_nPerChunk_evals :
    nSamples (3/2) 1 = 2 ∧ nPerChunk 1 2 = 2 ∧
    nSamples 11 1 = 11 ∧ nPerChunk 1 10 = 10 ∧
    nSamples 12 1 = 12 ∧ nPerChunk 1 11 = 11 ∧
    nSamples 1 2 = 2 ∧ nPerChunk 2 1 = 2 := by
  refine ⟨?_, ?_, ?_, ?_, ?_, ?_, ?_, ?_⟩ <;>
    simp only [nSamples, nPerChunk] <;>
    first
      | (simp; done)
      | (rw [show ((3:ℚ)/2 * 1) = 3/2 by norm_num,
          Nat.ceil_eq_iff (by norm_num)]; norm_num)

/-- Unfolding helper for evaluating the planner at concrete inputs. -/
theorem makeTimeChunks_eval (t_exp f_smp chunk_len : ℚ) (N npc : ℕ)
    (hN : nSamples t_exp f_smp = N) (hnpc : nPerChunk f_smp chunk_len = npc)
    (h : npc ≠ 0) :
    makeTimeChunks t_exp f_smp chunk_len =
      some (mergeLast (naiveChunks N npc)) := by
  simp [makeTimeChunks, hN, hnpc, h]

/-! ### Claims about the planner -/

/-- C1, counterexample: at `t_exp = 3/2`, `f_smp = 1`, `chunk_len = 2`
all hypotheses of the claim hold (`chunk_len * f_smp = 2 ≥ 1`), yet the
planner returns 2 sample timestamps while `⌊t_exp * f_smp⌋ = 1`:
`np.arange(0, t_exp, 1/f_smp)` has `⌈t_exp * f_smp⌉` elements, not
`⌊t_exp * f_smp⌋`. -/
theorem makeTimeChunks_not_floor :
    (0 : ℚ) < 3/2 ∧ (0 : ℚ) < 1 ∧ (0 : ℚ) < 2 ∧ (1 : ℚ) ≤ 2 * 1 ∧
    makeTimeChunks (3/2) 1 2 = some [[0, 1]] ∧
    ⌊(3/2 : ℚ) * 1⌋ = 1 := by
  obtain ⟨e1, e2, -, -, -, -, -, -⟩ := nSamples_nPerChunk_evals
  refine ⟨by norm_num, by norm_num, by norm_num, by norm_num, ?_, by norm_num⟩
  rw [makeTimeChunks_eval (3/2) 1 2 2 2 e1 e2 (by decide)]
  decide

/-- C1 (amended): for `t_exp > 0`, `f_smp > 0`, `chunk_len > 0` with
`chunk_len * f_smp ≥ 1`, the planner succeeds and its chunks, concatenated
in order, are exactly the sample indices `0, 1, …, N - 1` with
`N = ⌈t_exp * f_smp⌉ > 0` (hence strictly increasing, no duplicate or
skipped index, tiling `[0, N)` with no gaps or overlaps), and at least one
chunk is returned. -/
theorem makeTimeChunks_tiles (t_exp f_smp chunk_len : ℚ)
    (ht : 0 < t_exp) (hf : 0 < f_smp) (hc : 0 < chunk_len)
    (hcf : 1 ≤ chunk_len * f_smp) :
    ∃ cs, makeTimeChunks t_exp f_smp chunk_len = some cs ∧
      cs.flatten = List.range (nSamples t_exp f_smp) ∧
      0 < nSamples t_exp f_smp ∧ 1 ≤ cs.length := by
  have hfl : 1 ≤ ⌊chunk_len * f_smp⌋ := by
    rw [Int.le_floor]
    exact_mod_cast hcf
  have hnpc : nPerChunk f_smp chunk_len ≠ 0 := by
    unfold nPerChunk
    omega
  have hnpc' : 0 < nPerChunk f_smp chunk_len := Nat.pos_of_ne_zero hnpc
  have hN : 0 < nSamples t_exp f_smp := by
    unfold nSamples
    rw [Nat.ceil_pos]
    positivity
  refine ⟨mergeLast (naiveChunks (nSamples t_exp f_smp)
      (nPerChunk f_smp chunk_len)), by simp [makeTimeChunks, hnpc], ?_, hN, ?_⟩
  · rw [mergeLast_flatten, flatten_naiveChunks _ _ hnpc']
  · rcases hcs : mergeLast (naiveChunks (nSamples t_exp f_smp)
        (nPerChunk f_smp chunk_len)) with _ | ⟨c, cs'⟩
    · exfalso
      have hfl := mergeLast_flatten (naiveChunks (nSamples t_exp f_smp)
        (nPerChunk f_smp chunk_len))
      rw [hcs, flatten_naiveChunks _ _ hnpc'] at hfl
      have h0 : (List.range (nSamples t_exp f_smp)).length = 0 := by
        rw [← hfl]
        rfl
      simp at h0
      omega
    · simp

/-- C1, witness: the amended theorem at `t_exp = 1`, `f_smp = 2`,
`chunk_len = 1`. -/
theorem makeTimeChunks_tiles_witness :
    ∃ cs, makeTimeChunks 1 2 1 = some cs ∧
      cs.flatten = List.range (nSamples 1 2) ∧
      0 < nSamples 1 2 ∧ 1 ≤ cs.length :=
  makeTimeChunks_tiles 1 2 1 (by norm_num) (by norm_num) (by norm_num)
    (by norm_num)

/-- C2, counterexample: at `t_exp = 11`, `f_smp = 1`, `chunk_len = 10` the
naive split ends with a last chunk of exactly 1 sample and a
second-to-last chunk of exactly 10 samples, yet no merge happens (the
code's condition `len(last) * 10 < len(prev)` is strict): the planner
returns both chunks unmerged, not one fewer. -/
theorem makeTimeChunks_no_merge_at_ten :
    naiveChunks (nSamples 11 1) (nPerChunk 1 10) =
      [[0, 1, 2, 3, 4, 5, 6, 7, 8, 9], [10]] ∧
    makeTimeChunks 11 1 10 =
      some [[0, 1, 2, 3, 4, 5, 6, 7, 8, 9], [10]] := by
  obtain ⟨-, -, e3, e4, -, -, -, -⟩ := nSamples_nPerChunk_evals
  constructor
  · rw [e3, e4]
    decide
  · rw [makeTimeChunks_eval 11 1 10 11 10 e3 e4 (by decide)]
    decide

/-- C2 (amended): whenever the naive split ends with a last chunk of
exactly 1 sample and a second-to-last chunk of *more than 10* samples,
the planner merges the last chunk into its predecessor, returning one
fewer chunk, the final chunk being the concatenation of the last two
naive chunks. -/
theorem makeTimeChunks_merges_small_last (t_exp f_smp chunk_len : ℚ)
    (rest : List (List ℕ)) (prev lst : List ℕ)
    (hnpc : nPerChunk f_smp chunk_len ≠ 0)
    (hsplit : naiveChunks (nSamples t_exp f_smp) (nPerChunk f_smp chunk_len)
      = rest ++ [prev, lst])
    (hlast : lst.length = 1) (hprev : 10 < prev.length) :
    makeTimeChunks t_exp f_smp chunk_len = some (rest ++ [prev ++ lst]) := by
  have hcond : lst.length * 10 < prev.length := by omega
  simp only [makeTimeChunks, if_neg hnpc, hsplit, mergeLast_append_pair,
    mergeLast, if_pos hcond]

/-- C2, witness: `t_exp = 12`, `f_smp = 1`, `chunk_len = 11` gives a naive
split `[[0…10], [11]]` (last chunk 1 sample, second-to-last 11 > 10
samples) and the planner returns the single merged chunk. -/
theorem makeTimeChunks_merges_small_last_witness :
    makeTimeChunks 12 1 11 =
      some ([] ++ [[0, 1, 2, 3, 4, 5, 6, 7, 8, 9, 10] ++ [11]]) := by
  obtain ⟨-, -, -, -, e5, e6, -, -⟩ := nSamples_nPerChunk_evals
  exact makeTimeChunks_merges_small_last 12 1 11 []
    [0, 1, 2, 3, 4, 5, 6, 7, 8, 9, 10] [11]
    (by rw [e6]; decide) (by rw [e5, e6]; decide) (by decide) (by decide)

/-- C6: when `obs_params.t_exp` is unset (`none`) the run does not fail:
the exposure time used to build the time chunks is the mapping model's
own `t_pattern`; when `t_exp` is set the configured value is used
unchanged.  (`resolveTExp` and `runTimeChunks` are total functions.) -/
theorem runTimeChunks_resolves_t_exp (t_pattern f_smp chunk_len t : ℚ) :
    runTimeChunks none t_pattern f_smp chunk_len =
      makeTimeChunks t_pattern f_smp chunk_len ∧
    runTimeChunks (some t) t_pattern f_smp chunk_len =
      makeTimeChunks t f_smp chunk_len :=
  ⟨rfl, rfl⟩

/-- C10: for positive inputs with `chunk_len * f_smp < 1` the per-chunk
sample count `int(chunk_len * f_smp)` truncates to zero and
`n_times // n_times_per_chunk` raises `ZeroDivisionError` (modelled as
`none`); conversely a returned chunk sequence implies
`chunk_len * f_smp ≥ 1`, so that bound is a necessary precondition. -/
theorem makeTimeChunks_div_zero (t_exp f_smp chunk_len : ℚ)
    (ht : 0 < t_exp) (hf : 0 < f_smp) (hc : 0 < chunk_len) :
    (chunk_len * f_smp < 1 → makeTimeChunks t_exp f_smp chunk_len = none) ∧
    (∀ cs, makeTimeChunks t_exp f_smp chunk_len = some cs →
      1 ≤ chunk_len * f_smp) := by
  have key : chunk_len * f_smp < 1 → nPerChunk f_smp chunk_len = 0 := by
    intro h
    have h0 : ⌊chunk_len * f_smp⌋ < 1 := by
      rw [Int.floor_lt]
      exact_mod_cast h
    unfold nPerChunk
    omega
  constructor
  · intro h
    simp [makeTimeChunks, key h]
  · intro cs hcs
    by_contra hlt
    push_neg at hlt
    rw [makeTimeChunks, if_pos (key hlt)] at hcs
    exact Option.noConfusion hcs

/-- C10, witness: the theorem at `t_exp = 1`, `f_smp = 1`,
`chunk_len = 1/2`, where the planner indeed fails. -/
theorem makeTimeChunks_div_zero_witness :
    makeTimeChunks 1 1 (1/2) = none :=
  (makeTimeChunks_div_zero 1 1 (1/2) (by norm_num) (by norm_num)
    (by norm_num)).1 (by norm_num)

/-! ## TolTEC filename classifier (`ToltecDataFileSpec._info_from_filename`)

The TolTEC pattern is the regular expression

  toltec{nwid}_{obsid}_{subobsid}_{scanid}_{ut}[_{kindstr}].{fileext}

with `nwid`, `obsid`, `subobsid`, `scanid` digit strings, `ut` of the
shape `dddd_dd_dd_dd_dd_dd`, optional `kindstr` of characters other than
a slash or a dot, and a nonempty `fileext`.  A match is modelled as a
record of the captured substrings together with the predicate
`matchesToltec` stating that the filename decomposes accordingly. -/

/-- Captured substrings of the TolTEC filename pattern.  `kindstr` is
`none` when the optional group did not participate in the match; Python's
`m.groupdict()` still contains the key `kindstr` then, with value
`None`. -/
structure ToltecMatch where
  nwid : String
  obsid : String
  subobsid : String
  scanid : String
  ut : String
  kindstr : Option String
  fileext : String

/-- Splitting a character list on a separator (the character-level
counterpart of `str.split`, used to express the shape of the `ut`
group). -/
def splitOnChar (sep : Char) : List Char → List (List Char)
  | [] => [[]]
  | c :: cs =>
    match splitOnChar sep cs with
    | [] => [[c]]
    | g :: gs => if c = sep then [] :: g :: gs else (c :: g) :: gs

/-- ASCII lower-casing of one character (what Python `str.lower()` does on
the ASCII filenames considered here). -/
def lowerChar (c : Char) : Char :=
  if 65 ≤ c.toNat && c.toNat ≤ 90 then Char.ofNat (c.toNat + 32) else c

/-- ASCII lower-casing of a string, modelling Python `str.lower()`. -/
def lowerString (s : String) : String := ⟨s.data.map lowerChar⟩

/-- A nonempty all-digit string, as matched by a `\d+` group. -/
def isDigits (s : String) : Bool := !s.data.isEmpty && s.data.all Char.isDigit

/-- Well-formedness of the `ut` group
`\d{4}_\d{2}_\d{2}(?:_\d{2}_\d{2}_\d{2})`. -/
def utWellFormed (s : String) : Bool :=
  ((splitOnChar '_' s.data).map List.length == [4, 2, 2, 2, 2, 2]) &&
    (splitOnChar '_' s.data).all
      (fun g => !g.isEmpty && g.all Char.isDigit)

/-- Well-formedness of the optional kind group `[^\/.]+`. -/
def kindWellFormed : Option String → Bool
  | none => true
  | some k => !k.data.isEmpty && k.data.all (fun c => !(c == '/') && !(c == '.'))

/-- The filename matches the TolTEC pattern with captures `m`. -/
def matchesToltec (filename : String) (m : ToltecMatch) : Bool :=
  isDigits m.nwid && isDigits m.obsid && isDigits m.subobsid &&
  isDigits m.scanid && utWellFormed m.ut && kindWellFormed m.kindstr &&
  !m.fileext.isEmpty &&
  (filename ==
    "toltec" ++ m.nwid ++ "_" ++ m.obsid ++ "_" ++ m.subobsid ++ "_" ++
    m.scanid ++ "_" ++ m.ut ++
    (match m.kindstr with
     | none => ""
     | some k => "_" ++ k) ++
    "." ++ m.fileext)

/-- Decimal value of a digit string; Python `int()` on the matched
substring. -/
def strToInt (s : String) : ℕ := s.foldl (fun a c => a * 10 + (c.toNat - 48)) 0

/-- The info record built from a TolTEC match: the dict comprehension over
`m.groupdict()` with the `dispatch_toltec` coercions applied (`int` on the
network and observation identifiers, identity elsewhere; the `ut`
timestamp is kept as the matched string here). -/
structure ToltecInfo where
  interface : String
  instru : String
  nwid : ℕ
  obsid : ℕ
  subobsid : ℕ
  scanid : ℕ
  ut : String
  kindstr : Option String
  fileext : String

/-- The coercion step `{k: dispatch.get(k, lambda v: v)(v) for k, v in
m.groupdict().items()}`.  The unmatched optional group gives
`kindstr = None`, and the key is present in the dict regardless. -/
def dispatchToltec (m : ToltecMatch) : ToltecInfo :=
  { interface := "toltec" ++ m.nwid
    instru := "toltec"
    nwid := strToInt m.nwid
    obsid := strToInt m.obsid
    subobsid := strToInt m.subobsid
    scanid := strToInt m.scanid
    ut := m.ut
    kindstr := m.kindstr
    fileext := m.fileext }

/-- The post-processing `post_toltec`.  Note that `m.groupdict()` always
contains the key `kindstr` (with value `None` when the optional group did
not match), so the Python branch `if 'kindstr' not in info:` never fires
and no `timestream` default is ever applied; only the ancillary override
on the extension is live. -/
def post_toltec (info : ToltecInfo) : ToltecInfo :=
  if lowerString info.fileext ≠ "nc" then
    { info with kindstr := some "ancillary" }
  else info

/-- The classifier result for a TolTEC match: coercion then
post-processing. -/
def infoFromToltecMatch (m : ToltecMatch) : ToltecInfo :=
  post_toltec (dispatchToltec m)

/-- C3: the claim is right about the code's intent and the code is wrong.
At the filename `toltec0_1_2_3_2020_01_01_00_00_00.nc` (kind substring
absent, extension `nc`) the classifier leaves `kindstr = None` instead of
the documented default `timestream`: `m.groupdict()` always contains the
key `kindstr`, so the defaulting branch `if 'kindstr' not in info:` is
dead code.  The integer fields and the `ancillary` branch behave as
claimed. -/
theorem infoFromToltecMatch_kindstr_bug :
    matchesToltec "toltec0_1_2_3_2020_01_01_00_00_00.nc"
      { nwid := "0", obsid := "1", subobsid := "2", scanid := "3",
        ut := "2020_01_01_00_00_00", kindstr := none, fileext := "nc" } =
      true ∧
    (infoFromToltecMatch
      { nwid := "0", obsid := "1", subobsid := "2", scanid := "3",
        ut := "2020_01_01_00_00_00", kindstr := none,
        fileext := "nc" }).kindstr = none ∧
    (infoFromToltecMatch
      { nwid := "0", obsid := "1", subobsid := "2", scanid := "3",
        ut := "2020_01_01_00_00_00", kindstr := none,
        fileext := "nc" }).kindstr ≠ some "timestream" := by
  refine ⟨by decide, by decide, by decide⟩

/-- C9: for every filename matching the TolTEC pattern whose extension is
not `nc` after lower-casing, the classifier returns
`kindstr = "ancillary"`, overriding any explicitly matched kind
substring. -/
theorem infoFromToltecMatch_ancillary_override (filename : String)
    (m : ToltecMatch) (k : String)
    (hm : matchesToltec filename m = true)
    (hk : m.kindstr = some k)
    (hext : lowerString m.fileext ≠ "nc") :
    (infoFromToltecMatch m).kindstr = some "ancillary" := by
  have hext' : lowerString (dispatchToltec m).fileext ≠ "nc" := hext
  unfold infoFromToltecMatch post_toltec
  rw [if_pos hext']

/-- C9, witness: a filename with an explicit kind substring `vnasweep` and
extension `txt` classifies as ancillary. -/
theorem infoFromToltecMatch_ancillary_override_witness :
    (infoFromToltecMatch
      { nwid := "1", obsid := "2", subobsid := "3", scanid := "4",
        ut := "2020_01_01_00_00_00", kindstr := some "vnasweep",
        fileext := "txt" }).kindstr = some "ancillary" :=
  infoFromToltecMatch_ancillary_override
    "toltec1_2_3_4_2020_01_01_00_00_00_vnasweep.txt"
    { nwid := "1", obsid := "2", subobsid := "3", scanid := "4",
      ut := "2020_01_01_00_00_00", kindstr := some "vnasweep",
      fileext := "txt" }
    "vnasweep" (by decide) (by decide) (by decide)

/-! ## Config schema Meta flags

The config dataclasses carry an `ignore_extra_keys` flag in their `Meta`
schema: the schema library accepts a document with keys outside the
declared fields iff that flag is set.  From the source:
`SimuConfig.Meta` has `ignore_extra_keys: True`, while
`ObsParamsConfig.Meta` and `PerfParamsConfig.Meta` both have
`ignore_extra_keys: False`. -/

/-- Key-validation data of one config schema section. -/
structure SchemaMeta where
  knownKeys : List String
  ignoreExtraKeys : Bool

/-- Key-level validation semantics of the schema library's
`ignore_extra_keys` option: a document's key set passes iff extra keys
are ignored or every key is a declared field. -/
def validateKeys (meta : SchemaMeta) (docKeys : List String) : Bool :=
  meta.ignoreExtraKeys || docKeys.all (fun k => meta.knownKeys.contains k)

/-- Fields and flag of `SimuConfig` (`ignore_extra_keys: True`). -/
def simuConfigMeta : SchemaMeta :=
  { knownKeys := ["jobkey", "instrument", "mapping", "obs_params", "sources",
      "perf_params", "plots", "exports", "plot_only"]
    ignoreExtraKeys := true }

/-- Fields and flag of `ObsParamsConfig` (`ignore_extra_keys: False`). -/
def obsParamsConfigMeta : SchemaMeta :=
  { knownKeys := ["t_exp", "f_smp_mapping", "f_smp_probing"]
    ignoreExtraKeys := false }

/-- Fields and flag of `PerfParamsConfig` (`ignore_extra_keys: False`). -/
def perfParamsConfigMeta : SchemaMeta :=
  { knownKeys := ["chunk_len", "catalog_model_render_pixel_size",
      "mapping_eval_interp_len", "mapping_erfa_interp_len",
      "atm_eval_interp_alt_step", "pre_run_setup_time_grid_size",
      "anim_frame_rate"]
    ignoreExtraKeys := false }

/-- C7, counterexample: an unknown top-level key of the `simu` section is
accepted (not rejected), while an extra key inside `obs_params` is
rejected (not tolerated) — the opposite of the claim, on both counts. -/
theorem validateKeys_flags_counterexample :
    validateKeys simuConfigMeta ["jobkey", "not_a_simu_key"] = true ∧
    validateKeys obsParamsConfigMeta ["t_exp", "not_an_obs_key"] = false := by
  refine ⟨by decide, by decide⟩

/-- C7 (amended): validation of the `simu` section accepts every key set
(`ignore_extra_keys: True` at the top level), while the `obs_params` and
`perf_params` sub-documents reject any key outside their declared fields
and accept key sets drawn from the declared fields
(`ignore_extra_keys: False`). -/
theorem validateKeys_flags (ks : List String) :
    validateKeys simuConfigMeta ks = true ∧
    (∀ k ∈ ks, k ∉ obsParamsConfigMeta.knownKeys →
      validateKeys obsParamsConfigMeta ks = false) ∧
    (∀ k ∈ ks, k ∉ perfParamsConfigMeta.knownKeys →
      validateKeys perfParamsConfigMeta ks = false) ∧
    ((∀ k ∈ ks, k ∈ obsParamsConfigMeta.knownKeys) →
      validateKeys obsParamsConfigMeta ks = true) ∧
    ((∀ k ∈ ks, k ∈ perfParamsConfigMeta.knownKeys) →
      validateKeys perfParamsConfigMeta ks = true) := by
  refine ⟨by simp [validateKeys, simuConfigMeta], ?_, ?_, ?_, ?_⟩
  · intro k hk hnk
    simp only [validateKeys, obsParamsConfigMeta, Bool.false_or]
    rw [List.all_eq_false]
    exact ⟨k, hk, by simpa [List.elem_iff, obsParamsConfigMeta] using hnk⟩
  · intro k hk hnk
    simp only [validateKeys, perfParamsConfigMeta, Bool.false_or]
    rw [List.all_eq_false]
    exact ⟨k, hk, by simpa [List.elem_iff, perfParamsConfigMeta] using hnk⟩
  · intro hks
    simp only [validateKeys, obsParamsConfigMeta, Bool.false_or,
      List.all_eq_true]
    intro x hx
    simpa [List.elem_iff, obsParamsConfigMeta] using hks x hx
  · intro hks
    simp only [validateKeys, perfParamsConfigMeta, Bool.false_or,
      List.all_eq_true]
    intro x hx
    simpa [List.elem_iff, perfParamsConfigMeta] using hks x hx

/-- C7, witness: the amended theorem at concrete key sets. -/
theorem validateKeys_flags_witness :
    validateKeys simuConfigMeta ["frobnicate"] = true ∧
    validateKeys obsParamsConfigMeta ["t_exp", "frobnicate"] = false ∧
    validateKeys perfParamsConfigMeta ["chunk_len", "frobnicate"] = false ∧
    validateKeys obsParamsConfigMeta ["t_exp"] = true :=
  ⟨(validateKeys_flags ["frobnicate"]).1,
   (validateKeys_flags ["t_exp", "frobnicate"]).2.1 "frobnicate"
     (by decide) (by decide),
   (validateKeys_flags ["chunk_len", "frobnicate"]).2.2.1 "frobnicate"
     (by decide) (by decide),
   (validateKeys_flags ["t_exp"]).2.2.2.1 (by decide)⟩

/-! ## Coverage synthesis (`Toltec._make_cov_hdu_approx`)

The boresight samples and detector offsets are binned into 2-D histograms
(`np.histogram2d` with unit-spaced integer bin edges); a pixel is a pair
in `ℤ × ℤ` and an image a real-valued function on pixels.  The

  cov_im = convolve_fft(bs_im, det_im, normalize_kernel=False)

step is the discrete convolution; it is modelled exactly (ignoring
floating-point error and the crop of convolution tails back to the grid
shape, which the claim's tolerance and in-grid hypotheses account for). -/

/-- Histogram of a list of pixel positions: the occurrence count at each
bin. -/
noncomputable def hist2d (pts : List (ℤ × ℤ)) (p : ℤ × ℤ) : ℝ :=
  (pts.count p : ℝ)

/-- The boresight image `bs_im`: the boresight histogram scaled by the
per-sample dwell time (`bs_im *= dt_smp`), in seconds per pixel. -/
noncomputable def bsIm (dt_smp : ℝ) (bs_xy : List (ℤ × ℤ)) (p : ℤ × ℤ) : ℝ :=
  dt_smp * hist2d bs_xy p

/-- Discrete 2-D convolution of `f` with kernel `g`, the kernel index
running over the finite grid `K` carrying the support of `f`. -/
noncomputable def conv2 (f g : ℤ × ℤ → ℝ) (K : Finset (ℤ × ℤ))
    (p : ℤ × ℤ) : ℝ :=
  ∑ q ∈ K, f q * g (p.1 - q.1, p.2 - q.2)

/-- Sum of an image over a finite pixel grid (`ndarray.sum()`). -/
noncomputable def imSum (f : ℤ × ℤ → ℝ) (P : Finset (ℤ × ℤ)) : ℝ :=
  ∑ p ∈ P, f p

/-- The total of the raw (pre-beam-convolution) coverage map, divided by
the detector-histogram total (the quantity the code logs as
`cov_im.sum() / det_im.sum()`): `K` is the boresight pixel grid, `D` the
detector-footprint grid and `P` the output grid summed over. -/
noncomputable def rawCovSum (dt_smp : ℝ) (bs_xy det_xy : List (ℤ × ℤ))
    (K D P : Finset (ℤ × ℤ)) : ℝ :=
  imSum (conv2 (bsIm dt_smp bs_xy) (hist2d det_xy) K) P /
    imSum (hist2d det_xy) D

/-- Summing a shifted histogram over a grid containing all the shifted
points counts every point once. -/
theorem sum_hist2d_shift (P : Finset (ℤ × ℤ)) (q : ℤ × ℤ) :
    ∀ l : List (ℤ × ℤ), (∀ d ∈ l, (q.1 + d.1, q.2 + d.2) ∈ P) →
      (∑ p ∈ P, hist2d l (p.1 - q.1, p.2 - q.2)) = l.length := by
  intro l
  induction l with
  | nil => intro _; simp [hist2d]
  | cons d ds ih =>
    intro hmem
    have hds : ∀ e ∈ ds, (q.1 + e.1, q.2 + e.2) ∈ P := by
      intro e he
      exact hmem e (List.mem_cons_of_mem d he)
    have hsplit : ∀ p : ℤ × ℤ,
        hist2d (d :: ds) (p.1 - q.1, p.2 - q.2) =
          hist2d ds (p.1 - q.1, p.2 - q.2) +
            (if p = (q.1 + d.1, q.2 + d.2) then (1 : ℝ) else 0) := by
      intro p
      simp only [hist2d, List.count_cons]
      have hiff : ((p.1 - q.1, p.2 - q.2) = d) ↔ (p = (q.1 + d.1, q.2 + d.2)) := by
        constructor
        · intro h
          have h1 : p.1 - q.1 = d.1 := congrArg Prod.fst h
          have h2 : p.2 - q.2 = d.2 := congrArg Prod.snd h
          have hpp : p = (p.1, p.2) := rfl
          rw [hpp, Prod.mk.injEq]
          exact ⟨by omega, by omega⟩
        · intro h
          have h1 : p.1 = q.1 + d.1 := congrArg Prod.fst h
          have h2 : p.2 = q.2 + d.2 := congrArg Prod.snd h
          have hdd : d = (d.1, d.2) := rfl
          rw [hdd, Prod.mk.injEq]
          exact ⟨by omega, by omega⟩
      by_cases hp : p = (q.1 + d.1, q.2 + d.2)
      · have hbeq : (d == (p.1 - q.1, p.2 - q.2)) = true :=
          beq_iff_eq.mpr (hiff.mpr hp).symm
        rw [if_pos hp]
        simp only [hbeq, if_true]
        push_cast
        ring
      · have hbne : (d == (p.1 - q.1, p.2 - q.2)) = false := by
          rw [beq_eq_false_iff_ne]
          exact fun hc => hp (hiff.mp hc.symm)
        rw [if_neg hp]
        simp only [hbne, Bool.false_eq_true, if_false]
        push_cast
        ring
    rw [Finset.sum_congr rfl (fun p _ => hsplit p), Finset.sum_add_distrib,
      ih hds, Finset.sum_ite_eq' P (q.1 + d.1, q.2 + d.2) (fun _ => (1 : ℝ)),
      if_pos (hmem d (List.mem_cons_self d ds))]
    simp only [List.length_cons]
    push_cast
    ring

/-- Summing a histogram over a grid containing all its points counts
every point once. -/
theorem sum_hist2d_mem (K : Finset (ℤ × ℤ)) (l : List (ℤ × ℤ))
    (h : ∀ s ∈ l, s ∈ K) : (∑ q ∈ K, hist2d l q) = l.length := by
  have h' : ∀ d ∈ l, ((0 : ℤ) + d.1, (0 : ℤ) + d.2) ∈ K := by
    intro d hd
    simpa using h d hd
  have := sum_hist2d_shift K (0, 0) l h'
  simpa using this

/-- C5: for a boresight trajectory whose samples all land in the pixel
grid `K`, with the detector offsets confined to `D` and the output grid
`P` large enough to carry the convolution support, the raw coverage map
(the dwell-time-scaled boresight histogram convolved with the
unnormalized detector histogram and divided by the detector histogram
sum) has total mass exactly `n_samples * dt_smp`, the total observation
dwell time (so in exact arithmetic the 1e-6 relative tolerance of the
claim holds trivially). -/
theorem rawCovSum_conservation (dt_smp : ℝ) (bs_xy det_xy : List (ℤ × ℤ))
    (K D P : Finset (ℤ × ℤ))
    (hK : ∀ s ∈ bs_xy, s ∈ K)
    (hD : ∀ d ∈ det_xy, d ∈ D)
    (hdet : det_xy ≠ [])
    (hP : ∀ s ∈ bs_xy, ∀ d ∈ det_xy, (s.1 + d.1, s.2 + d.2) ∈ P) :
    rawCovSum dt_smp bs_xy det_xy K D P = bs_xy.length * dt_smp := by
  have hdetsum : imSum (hist2d det_xy) D = det_xy.length :=
    sum_hist2d_mem D det_xy hD
  have hconv : imSum (conv2 (bsIm dt_smp bs_xy) (hist2d det_xy) K) P =
      dt_smp * bs_xy.length * det_xy.length := by
    unfold imSum conv2
    rw [Finset.sum_comm]
    have hterm : ∀ q ∈ K,
        (∑ p ∈ P, bsIm dt_smp bs_xy q *
          hist2d det_xy (p.1 - q.1, p.2 - q.2)) =
          bsIm dt_smp bs_xy q * det_xy.length := by
      intro q _
      rw [← Finset.mul_sum]
      by_cases hmem : q ∈ bs_xy
      · rw [sum_hist2d_shift P q det_xy (fun d hd => hP q hmem d hd)]
      · have hz : bsIm dt_smp bs_xy q = 0 := by
          simp [bsIm, hist2d, List.count_eq_zero.mpr hmem]
        rw [hz, zero_mul, zero_mul]
    rw [Finset.sum_congr rfl hterm]
    simp only [bsIm]
    rw [← Finset.sum_mul, ← Finset.mul_sum, sum_hist2d_mem K bs_xy hK]
  unfold rawCovSum
  rw [hconv, hdetsum]
  have hlen : (det_xy.length : ℝ) ≠ 0 := by
    have : det_xy.length ≠ 0 := fun h0 => hdet (List.length_eq_zero.mp h0)
    exact_mod_cast this
  field_simp
  ring

/-- C5, witness: a one-sample trajectory with a one-detector footprint on
the singleton grid, `dt_smp = 2`: the raw coverage total is `1 * 2`. -/
theorem rawCovSum_conservation_witness :
    rawCovSum 2 [((0 : ℤ), (0 : ℤ))] [((0 : ℤ), (0 : ℤ))]
      {((0 : ℤ), (0 : ℤ))} {((0 : ℤ), (0 : ℤ))} {((0 : ℤ), (0 : ℤ))} = 2 := by
  have h := rawCovSum_conservation 2 [((0 : ℤ), (0 : ℤ))]
    [((0 : ℤ), (0 : ℤ))] {((0 : ℤ), (0 : ℤ))} {((0 : ℤ), (0 : ℤ))}
    {((0 : ℤ), (0 : ℤ))}
    (by simp)
    (by simp)
    (by simp)
    (by
      intro s hs d hd
      simp only [List.mem_singleton] at hs hd
      subst hs
      subst hd
      simp)
  simpa using h

/-! ## Depth conversion and outline extraction (`Toltec.make_traj_data`)

The coverage image is flattened to a list of pixel values.  The code
computes `cov_max = cov_data.max()`, the mask
`m_cov = cov_data > 0.02 * cov_max`, then builds
`cov_data_mJy_per_beam = np.zeros(...)` and assigns
`sens_coeff * nefd / sqrt(cov_data[m_cov] * beam_area_pix2)` at the
masked pixels; for the outline it copies the data and zeroes the
complement of the same 2% mask (`cov_ctr[~m_cov] = 0`). -/

/-- Maximum entry of a numpy array (`ndarray.max()`; every use here is on
a nonempty array). -/
noncomputable def npMax : List ℝ → ℝ
  | [] => 0
  | x :: xs => xs.foldl max x

/-- The 2% coverage mask `m_cov = cov_data > 0.02 * cov_max`. -/
noncomputable def mCov (cov : List ℝ) : List Bool :=
  cov.map (fun c => if 0.02 * npMax cov < c then true else false)

/-- Python `np.zeros(cov_data.shape)`. -/
noncomputable def npZerosLike (cov : List ℝ) : List ℝ := cov.map (fun _ => 0)

/-- Elementwise masked assignment `out = base; out[mask] = vals[mask]`. -/
noncomputable def maskedAssign : List ℝ → List Bool → List ℝ → List ℝ
  | b :: bs, m :: ms, v :: vs => (if m then v else b) :: maskedAssign bs ms vs
  | _, _, _ => []

/-- The sensitivity coefficient `sens_coeff = np.sqrt(2.)`. -/
noncomputable def sens_coeff : ℝ := Real.sqrt 2

/-- The beam area in pixel units:
`beam_area = 2 * np.pi * a_stddev * b_stddev` divided by the pixel
area. -/
noncomputable def beam_area_pix2 (a_stddev b_stddev cov_pixarea : ℝ) : ℝ :=
  2 * Real.pi * a_stddev * b_stddev / cov_pixarea

/-- The per-pixel depth values
`sens_coeff * nefd / np.sqrt(cov_data * beam_area_pix2)`. -/
noncomputable def depthVals (nefd bap : ℝ) (cov : List ℝ) : List ℝ :=
  cov.map (fun c => sens_coeff * nefd / Real.sqrt (c * bap))

/-- The depth map `cov_data_mJy_per_beam`: zeros, with the depth formula
assigned at the pixels of the 2% mask. -/
noncomputable def covToDepth (nefd bap : ℝ) (cov : List ℝ) : List ℝ :=
  maskedAssign (npZerosLike cov) (mCov cov) (depthVals nefd bap cov)

/-- The contour input `cov_ctr`: a copy of the data with the complement
of the 2% mask zeroed (`cov_ctr[~m_cov] = 0`). -/
noncomputable def covCtr (cov : List ℝ) : List ℝ :=
  maskedAssign cov ((mCov cov).map (fun b => !b)) (npZerosLike cov)

/-- Contour selection: the Python loop takes the first contour with more
than 2 points and breaks; if none qualifies the loop's `else` keeps the
last contour; an empty contour tuple leaves the variable unbound
(`none`). -/
def selectContour : List (List (ℤ × ℤ)) → Option (List (ℤ × ℤ))
  | [] => none
  | c :: cs =>
    if 2 < c.length then some c
    else (selectContour cs).elim (some c) some

/-- The polygon-simplification tolerance
`0.002 * cv2.arcLength(cxy, True)`, as a function of the contour
perimeter. -/
noncomputable def outlineTol (perimeter : ℝ) : ℝ := 0.002 * perimeter

/-! ### Lemmas about the list pipeline -/

/-- Length of a masked assignment. -/
theorem maskedAssign_length :
    ∀ (bs : List ℝ) (ms : List Bool) (vs : List ℝ),
      (maskedAssign bs ms vs).length =
        min bs.length (min ms.length vs.length)
  | [], _, _ => by simp [maskedAssign]
  | _ :: _, [], _ => by simp [maskedAssign]
  | _ :: _, _ :: _, [] => by simp [maskedAssign]
  | b :: bs, m :: ms, v :: vs => by
    simp only [maskedAssign, List.length_cons, maskedAssign_length bs ms vs]
    omega

/-- Elementwise description of a masked assignment. -/
theorem maskedAssign_get :
    ∀ (bs : List ℝ) (ms : List Bool) (vs : List ℝ) (i : ℕ)
      (hb : i < bs.length) (hm : i < ms.length) (hv : i < vs.length)
      (h : i < (maskedAssign bs ms vs).length),
      (maskedAssign bs ms vs).get ⟨i, h⟩ =
        if ms.get ⟨i, hm⟩ then vs.get ⟨i, hv⟩ else bs.get ⟨i, hb⟩
  | b :: bs, m :: ms, v :: vs, 0, _, _, _, _ => rfl
  | b :: bs, m :: ms, v :: vs, i + 1, hb, hm, hv, h => by
    have hb' : i < bs.length := by simpa using hb
    have hm' : i < ms.length := by simpa using hm
    have hv' : i < vs.length := by simpa using hv
    have h' : i < (maskedAssign bs ms vs).length := by
      simpa [maskedAssign] using h
    simpa [maskedAssign] using maskedAssign_get bs ms vs i hb' hm' hv' h'

/-- Length of the depth map. -/
theorem covToDepth_length (nefd bap : ℝ) (cov : List ℝ) :
    (covToDepth nefd bap cov).length = cov.length := by
  simp [covToDepth, maskedAssign_length, npZerosLike, mCov, depthVals]

/-- Length of the contour input. -/
theorem covCtr_length (cov : List ℝ) :
    (covCtr cov).length = cov.length := by
  simp [covCtr, maskedAssign_length, npZerosLike, mCov]

/-- The non-`none` property of contour selection on nonempty input. -/
theorem selectContour_some :
    ∀ (c : List (ℤ × ℤ)) (cs : List (List (ℤ × ℤ))),
      ∃ r, selectContour (c :: cs) = some r
  | c, [] => by
    by_cases h : 2 < c.length
    · exact ⟨c, by rw [selectContour, if_pos h]⟩
    · exact ⟨c, by rw [selectContour, if_neg h]; rfl⟩
  | c, c₂ :: cs => by
    by_cases h : 2 < c.length
    · exact ⟨c, by rw [selectContour, if_pos h]⟩
    · obtain ⟨r, hr⟩ := selectContour_some c₂ cs
      exact ⟨r, by rw [selectContour, if_neg h, hr]; rfl⟩

/-- C4: at every pixel the depth map equals
`sqrt 2 * nefd / sqrt(cov[px] * (2 * pi * a_stddev * b_stddev / pixarea))`
when the pixel's coverage strictly exceeds 2% of the peak coverage, and
`0` when it is at or below that threshold. -/
theorem covToDepth_pixel (cov : List ℝ)
    (nefd a_stddev b_stddev cov_pixarea : ℝ) (i : ℕ) (hi : i < cov.length)
    (h : i <
      (covToDepth nefd (beam_area_pix2 a_stddev b_stddev cov_pixarea)
        cov).length) :
    (covToDepth nefd (beam_area_pix2 a_stddev b_stddev cov_pixarea)
        cov).get ⟨i, h⟩ =
      if 0.02 * npMax cov < cov.get ⟨i, hi⟩ then
        Real.sqrt 2 * nefd /
          Real.sqrt (cov.get ⟨i, hi⟩ *
            (2 * Real.pi * a_stddev * b_stddev / cov_pixarea))
      else 0 := by
  have hm : i < (mCov cov).length := by simpa [mCov] using hi
  have hv : i <
      (depthVals nefd (beam_area_pix2 a_stddev b_stddev cov_pixarea)
        cov).length := by
    simpa [depthVals] using hi
  have hb : i < (npZerosLike cov).length := by simpa [npZerosLike] using hi
  unfold covToDepth
  rw [maskedAssign_get _ _ _ i hb hm hv h]
  simp only [mCov, npZerosLike, depthVals, List.get_eq_getElem,
    List.getElem_map, sens_coeff, beam_area_pix2]
  by_cases hc : 0.02 * npMax cov < cov[i]
  · simp [hc]
  · simp [hc]

/-- C4, witness: a single-pixel map of value 1 with `nefd = 1`,
`a_stddev = b_stddev = 1` and pixel area `2 * pi` (so the beam area is
exactly one pixel) has depth `sqrt 2` at its pixel. -/
theorem covToDepth_pixel_witness :
    (covToDepth 1 (beam_area_pix2 1 1 (2 * Real.pi)) [1]).getD 0 0 =
      Real.sqrt 2 := by
  have hlen :
      (covToDepth 1 (beam_area_pix2 1 1 (2 * Real.pi)) [(1 : ℝ)]).length =
        1 := covToDepth_length _ _ _
  have h0 : (0 : ℕ) < (covToDepth 1 (beam_area_pix2 1 1 (2 * Real.pi))
      [(1 : ℝ)]).length := by omega
  have hkey := covToDepth_pixel [(1 : ℝ)] 1 1 1 (2 * Real.pi) 0
    (by norm_num) h0
  rw [List.get_eq_getElem] at hkey
  rw [List.getD_eq_getElem?_getD, List.getElem?_eq_getElem h0,
    Option.getD_some, hkey]
  have hmax : npMax [(1 : ℝ)] = 1 := by simp [npMax]
  have harg : ((2 : ℝ) * Real.pi * 1 * 1 / (2 * Real.pi)) = 1 := by
    have hpi : (2 : ℝ) * Real.pi ≠ 0 := by positivity
    field_simp
  simp only [List.get_cons_zero, hmax]
  rw [if_pos (by norm_num), harg]
  norm_num

/-- C8, counterexample: on the two-pixel map `[1, 1/20]` the pixel at 5%
of peak is at or below the claimed 10% threshold, yet the code's contour
input keeps it nonzero — the outline thresholding uses the 2% mask
`m_cov`, not 10% of peak. -/
theorem covCtr_not_ten_percent :
    (covCtr [1, 1/20]).getD 1 0 = 1/20 ∧
    ((1 : ℝ)/20) ≤ 0.1 * npMax [1, 1/20] ∧ ((1 : ℝ)/20) ≠ 0 := by
  have hmax : npMax [(1 : ℝ), 1/20] = 1 := by
    simp only [npMax, List.foldl]
    rw [max_eq_left (by norm_num)]
  have hctr : covCtr [(1 : ℝ), 1/20] = [1, 1/20] := by
    norm_num [covCtr, mCov, npZerosLike, hmax, maskedAssign]
  refine ⟨by rw [hctr]; rfl, by rw [hmax]; norm_num, by norm_num⟩

/-- C8 (amended): the outline step zeroes the pixels at or below 2% of
the peak coverage (the same `m_cov` mask as the depth conversion, not
10%), selects the first contour with more than 2 points (falling back to
the last contour, not the largest one), and simplifies with tolerance
`0.002` times the contour perimeter. -/
theorem outline_extraction_spec :
    (∀ (cov : List ℝ) (i : ℕ) (hi : i < cov.length)
        (h : i < (covCtr cov).length),
      (covCtr cov).get ⟨i, h⟩ =
        if 0.02 * npMax cov < cov.get ⟨i, hi⟩ then cov.get ⟨i, hi⟩ else 0) ∧
    (∀ cs : List (List (ℤ × ℤ)),
      selectContour cs =
        Option.orElse (cs.find? (fun c => decide (2 < c.length)))
          (fun _ => cs.getLast?)) ∧
    (∀ perimeter : ℝ, outlineTol perimeter = 0.002 * perimeter) := by
  refine ⟨?_, ?_, fun _ => rfl⟩
  · intro cov i hi h
    have hm : i < ((mCov cov).map (fun b => !b)).length := by
      simpa [mCov] using hi
    have hv : i < (npZerosLike cov).length := by simpa [npZerosLike] using hi
    unfold covCtr
    rw [maskedAssign_get _ _ _ i hi hm hv h]
    simp only [mCov, npZerosLike, List.get_eq_getElem, List.getElem_map]
    by_cases hc : 0.02 * npMax cov < cov[i]
    · simp [hc]
    · simp [hc]
  · intro cs
    induction cs with
    | nil => rfl
    | cons c cs ih =>
      by_cases h : 2 < c.length
      · rw [selectContour, if_pos h,
          List.find?_cons_of_pos _ (by simpa using h)]
        rfl
      · cases cs with
        | nil =>
          rw [selectContour, if_neg h,
            List.find?_cons_of_neg _ (by simpa using h)]
          rfl
        | cons c₂ cs₂ =>
          obtain ⟨r0, hr0⟩ := selectContour_some c₂ cs₂
          have hlhs : selectContour (c :: c₂ :: cs₂) = some r0 := by
            rw [selectContour, if_neg h, hr0]
            rfl
          have hrhs :
              Option.orElse
                ((c :: c₂ :: cs₂).find? (fun c => decide (2 < c.length)))
                (fun _ => (c :: c₂ :: cs₂).getLast?) =
              Option.orElse
                ((c₂ :: cs₂).find? (fun c => decide (2 < c.length)))
                (fun _ => (c₂ :: cs₂).getLast?) := by
            rw [List.find?_cons_of_neg _ (by simpa using h),
              List.getLast?_cons_cons]
          rw [hlhs, hrhs, ← ih, hr0]

/-- C8, witness: the amended theorem at a one-pixel map (kept pixel), a
single 3-point contour (selected), and perimeter 5. -/
theorem outline_extraction_spec_witness :
    (covCtr [(2 : ℝ)]).getD 0 0 = 2 ∧
    selectContour
        [[((0 : ℤ), (0 : ℤ)), ((1 : ℤ), (0 : ℤ)), ((1 : ℤ), (1 : ℤ))]] =
      some [((0 : ℤ), (0 : ℤ)), ((1 : ℤ), (0 : ℤ)), ((1 : ℤ), (1 : ℤ))] ∧
    outlineTol 5 = 0.002 * 5 := by
  refine ⟨?_, ?_, outline_extraction_spec.2.2 5⟩
  · have hlen : (covCtr [(2 : ℝ)]).length = 1 := covCtr_length _
    have h0 : 0 < (covCtr [(2 : ℝ)]).length := by omega
    have hkey := outline_extraction_spec.1 [(2 : ℝ)] 0 (by norm_num) h0
    rw [List.get_eq_getElem] at hkey
    rw [List.getD_eq_getElem?_getD, List.getElem?_eq_getElem h0,
      Option.getD_some, hkey]
    have hmax : npMax [(2 : ℝ)] = 2 := by simp [npMax]
    simp only [List.get_cons_zero, hmax]
    rw [if_pos (by norm_num)]
    rfl
  · rw [outline_extraction_spec.2.1]
    decide

end Tolteca
